import Mathlib

/-!
Verification of the TabNLP analytics core: the dataset merge/join engine
(`src/services/dataMerger.js`), the chart recommendation engine
(`src/services/chartRecommender.js`) and the join-key suggester, embedded
shallowly in Lean.  JS rows (plain objects mapping column names to scalars)
become association lists with JS property semantics (first occurrence wins on
read, in-place overwrite on write); JS `Map` becomes an association list with
insertion-order keys; JS `Array.prototype.sort` (stable since ES2019) becomes
a stable insertion sort.
-/

namespace TabNLP

/-- A JS row scalar: `null`/`undefined`-as-stored-null, a number, or a string.
(Rows in this app hold numbers, strings or null; `undefined` is modelled by
absence of the field, i.e. `rowGet` returning `none`.) -/
inductive Value where
  | vNull : Value
  | vNum : Int → Value
  | vStr : String → Value
  deriving DecidableEq, Repr

/-- JS `String(v)` on a row scalar. -/
def jsString : Value → String
  | Value.vNull => "null"
  | Value.vNum n => toString n
  | Value.vStr s => s

/-- JS `String.prototype.toLowerCase` (ASCII fragment). -/
def jsToLower (s : String) : String :=
  String.mk (s.data.map Char.toLower)

/-- JS `String.prototype.trim`: strip leading and trailing whitespace. -/
def jsTrim (s : String) : String :=
  String.mk (((s.data.dropWhile Char.isWhitespace).reverse.dropWhile Char.isWhitespace).reverse)

/-- A row: a JS object, i.e. an insertion-ordered association list from
column names to scalars. -/
abbrev Row := List (String × Value)

/-- JS property read `row[k]`: `none` models `undefined`. -/
def rowGet : Row → String → Option Value
  | [], _ => none
  | (k', v') :: rest, k => if k' = k then some v' else rowGet rest k

/-- JS property write `row[k] = v`: overwrite in place, else append. -/
def rowSet : Row → String → Value → Row
  | [], k, v => [(k, v)]
  | (k', v') :: rest, k, v =>
    if k' = k then (k', v) :: rest else (k', v') :: rowSet rest k v

/-- `normalizeKey` from dataMerger.js: null/undefined map to the `__NULL__`
sentinel, anything else to the trimmed lowercased string form. -/
def normalizeKey : Option Value → String
  | none => "__NULL__"
  | some Value.vNull => "__NULL__"
  | some v => jsToLower (jsTrim (jsString v))

/-- Declared column type (`ColumnSchema.type`). -/
inductive ColType where
  | number : ColType
  | string : ColType
  | date : ColType
  | boolean : ColType
  deriving DecidableEq, Repr

/-- A `ColumnSchema`: name plus declared type. -/
structure Column where
  name : String
  type : ColType
  deriving DecidableEq, Repr

/-- The `joinType` argument of `mergeDatasets`. -/
inductive JoinType where
  | inner : JoinType
  | left : JoinType
  | right : JoinType
  | full : JoinType
  | append : JoinType
  deriving DecidableEq, Repr

/-- A right-side column after the disambiguation pass in `mergeDatasets`:
`name` is the (possibly `_right`-suffixed) output name, `originalName` the
source-row field it is read from. -/
structure MergedCol where
  name : String
  originalName : String
  type : ColType
  deriving DecidableEq, Repr

/-- Result of `mergeDatasets`: `{ data, columns }`. -/
structure MergeResult where
  data : List Row
  columns : List Column
  deriving DecidableEq, Repr

/-- `buildMergedRow` from dataMerger.js: left columns read from the left row
(`?? null`), renamed right columns read from the right row at their original
name (`c.originalName || c.name`, i.e. falling back when it is empty). -/
def buildMergedRow (leftRow rightRow : Option Row)
    (leftCols : List Column) (renamedCols : List MergedCol) : Row :=
  let r1 := leftCols.foldl (fun row c =>
    rowSet row c.name (match leftRow with
      | some lr => (rowGet lr c.name).getD Value.vNull
      | none => Value.vNull)) []
  renamedCols.foldl (fun row c =>
    let sourceKey := if c.originalName = "" then c.name else c.originalName
    rowSet row c.name (match rightRow with
      | some rr => (rowGet rr sourceKey).getD Value.vNull
      | none => Value.vNull)) r1

/-- One step of building the right-side lookup `Map` (key → array of rows):
push onto the existing entry, else add a new entry at the end. -/
def insertRight : List (String × List Row) → String → Row → List (String × List Row)
  | [], k, row => [(k, [row])]
  | (k', rows) :: rest, k, row =>
    if k' = k then (k', rows ++ [row]) :: rest
    else (k', rows) :: insertRight rest k row

/-- `Map.prototype.get` on the right-side lookup map. -/
def mapGet : List (String × List Row) → String → Option (List Row)
  | [], _ => none
  | (k', rows) :: rest, k => if k' = k then some rows else mapGet rest k

/-- The `rightMap` built by `mergeDatasets`: one forEach pass over the right
rows, grouping by normalized key. -/
def buildRightMap (rightData : List Row) (rightKey : String) :
    List (String × List Row) :=
  rightData.foldl (fun m row => insertRight m (normalizeKey (rowGet row rightKey)) row) []

/-- `renamedRightCols` from `mergeDatasets`: drop the right join-key column,
then suffix `_right` onto any remaining right column whose name collides with
a left column name, remembering the original name. -/
def renamedRightCols (leftColumns rightColumns : List Column) (rightKey : String) :
    List MergedCol :=
  let rightColsFiltered := rightColumns.filter fun c => c.name ≠ rightKey
  let leftColNames := leftColumns.map fun c => c.name
  rightColsFiltered.map fun c =>
    if leftColNames.contains c.name then
      MergedCol.mk (c.name ++ "_right") c.name c.type
    else
      MergedCol.mk c.name c.name c.type

/-- JS `Set.prototype.add` on the used-right-keys set (insertion order kept,
duplicates ignored). -/
def addUsedKey (used : List String) (k : String) : List String :=
  if used.contains k then used else used ++ [k]

/-- The left-row forEach loop of `mergeDatasets`: walk left rows in order,
emitting the cross product with the matching right rows, or (for left/full) a
null-right row when there is no match; record each matched normalized key. -/
def leftPass (rightMap : List (String × List Row)) (leftKey : String)
    (joinType : JoinType) (leftCols : List Column) (rightCols : List MergedCol) :
    List Row → List String → List Row → List String × List Row
  | [], used, acc => (used, acc)
  | leftRow :: rest, used, acc =>
    let key := normalizeKey (rowGet leftRow leftKey)
    match mapGet rightMap key with
    | some ms =>
      if 0 < ms.length then
        leftPass rightMap leftKey joinType leftCols rightCols rest (addUsedKey used key)
          (acc ++ ms.map (fun rightRow =>
            buildMergedRow (some leftRow) (some rightRow) leftCols rightCols))
      else if joinType = JoinType.left ∨ joinType = JoinType.full then
        leftPass rightMap leftKey joinType leftCols rightCols rest used
          (acc ++ [buildMergedRow (some leftRow) none leftCols rightCols])
      else
        leftPass rightMap leftKey joinType leftCols rightCols rest used acc
    | none =>
      if joinType = JoinType.left ∨ joinType = JoinType.full then
        leftPass rightMap leftKey joinType leftCols rightCols rest used
          (acc ++ [buildMergedRow (some leftRow) none leftCols rightCols])
      else
        leftPass rightMap leftKey joinType leftCols rightCols rest used acc

/-- The right-row forEach loop of `mergeDatasets` (right/full joins): emit a
null-left row for every right row whose normalized key was never matched. -/
def rightPass (rightKey : String) (usedRightKeys : List String)
    (leftCols : List Column) (rightCols : List MergedCol) : List Row → List Row
  | [] => []
  | rightRow :: rest =>
    let key := normalizeKey (rowGet rightRow rightKey)
    if usedRightKeys.contains key then
      rightPass rightKey usedRightKeys leftCols rightCols rest
    else
      buildMergedRow none (some rightRow) leftCols rightCols ::
        rightPass rightKey usedRightKeys leftCols rightCols rest

/-- One `colMap.set(c.name, c)` step of `appendDatasets`: replace in place if
the name is present, else append. -/
def colMapSet (m : List Column) (c : Column) : List Column :=
  if m.any (fun c2 => c2.name = c.name) then
    m.map fun c2 => if c2.name = c.name then c else c2
  else
    m ++ [c]

/-- The column union built by `appendDatasets`: set every left column into
the map, then set each right column only when its name is absent; the merged
columns are the map values in key-insertion order. -/
def unionColumns (leftColumns rightColumns : List Column) : List Column :=
  rightColumns.foldl
    (fun m c => if m.any (fun c2 => c2.name = c.name) then m else m ++ [c])
    (leftColumns.foldl colMapSet [])

/-- The `normalize` closure of `appendDatasets`: rebuild a row so that it has
a value (null-defaulted) for every union column name, in column order. -/
def normalizeRowTo (allColNames : List String) (row : Row) : Row :=
  allColNames.foldl (fun out name => rowSet out name ((rowGet row name).getD Value.vNull)) []

/-- `appendDatasets` from dataMerger.js: union the columns (left first, then
right names not already present), normalize every row to carry a value
(null-defaulted) for every union column, and concatenate left rows then right
rows. -/
def appendDatasets (leftData rightData : List Row)
    (leftColumns rightColumns : List Column) : MergeResult :=
  let colMap := unionColumns leftColumns rightColumns
  let allColNames := colMap.map fun c => c.name
  MergeResult.mk
    (leftData.map (normalizeRowTo allColNames) ++ rightData.map (normalizeRowTo allColNames))
    colMap

/-- `mergeDatasets` from dataMerger.js.  (The source also computes a
`rightColNames` set that it never reads; it is omitted here.) -/
def mergeDatasets (leftData rightData : List Row)
    (leftColumns rightColumns : List Column)
    (leftKey rightKey : String) (joinType : JoinType) : MergeResult :=
  if joinType = JoinType.append then
    appendDatasets leftData rightData leftColumns rightColumns
  else
    let rightMap := buildRightMap rightData rightKey
    let renamedCols := renamedRightCols leftColumns rightColumns rightKey
    let mergedColumns := leftColumns ++ renamedCols.map fun c => Column.mk c.name c.type
    let stepped := leftPass rightMap leftKey joinType leftColumns renamedCols leftData [] []
    let finalData :=
      if joinType = JoinType.right ∨ joinType = JoinType.full then
        stepped.2 ++ rightPass rightKey stepped.1 leftColumns renamedCols rightData
      else stepped.2
    MergeResult.mk finalData mergedColumns

/-- `suggestJoinKeys` name normalization: lowercase, then strip underscores,
whitespace and hyphens (`name.toLowerCase().replace` of the class `[_\s-]`). -/
def normalizeName (s : String) : String :=
  String.mk ((jsToLower s).data.filter fun c => !(c = '_' || c = '-' || c.isWhitespace))

/-- `sub` occurs as a contiguous run inside `l` (JS `String.prototype.includes`
on the underlying characters). -/
def listContainsSub (sub : List Char) : List Char → Bool
  | [] => sub.isEmpty
  | c :: rest => sub.isPrefixOf (c :: rest) || listContainsSub sub rest

/-- JS `a.includes(b)`. -/
def strIncludes (a b : String) : Bool :=
  listContainsSub b.data a.data

/-- One join-key suggestion `{ leftKey, rightKey, confidence }`. -/
structure Suggestion where
  leftKey : String
  rightKey : String
  confidence : Nat
  deriving DecidableEq, Repr

/-- The per-pair rule chain of `suggestJoinKeys`: exact normalized match →
100, containment → 60, same type + shared 3-prefix + length > 3 → 30, else
nothing. -/
def pairSuggestion (lc rc : Column) : Option Suggestion :=
  let ln := normalizeName lc.name
  let rn := normalizeName rc.name
  if ln = rn then
    some (Suggestion.mk lc.name rc.name 100)
  else if strIncludes ln rn || strIncludes rn ln then
    some (Suggestion.mk lc.name rc.name 60)
  else if lc.type = rc.type ∧ ln.data.take 3 = rn.data.take 3 ∧ 3 < ln.length then
    some (Suggestion.mk lc.name rc.name 30)
  else
    none

/-- Stable insert of `x` before the first element whose key is ≤ its own
(descending order). -/
def insertDescBy {α : Type} (key : α → Nat) (x : α) : List α → List α
  | [] => [x]
  | y :: ys => if key y ≤ key x then x :: y :: ys else y :: insertDescBy key x ys

/-- Stable sort, descending by `key`.  JS `Array.prototype.sort` with the
comparator `(a, b) => key(b) - key(a)` is stable (ES2019), and a stable sort
under a fixed preorder is extensionally unique, so this insertion sort models
it exactly. -/
def sortDescBy {α : Type} (key : α → Nat) : List α → List α
  | [] => []
  | x :: xs => insertDescBy key x (sortDescBy key xs)

/-- `suggestJoinKeys` from dataMerger.js: evaluate the rule chain on every
(left, right) column pair (in nested forEach order) and sort the emitted
suggestions by confidence, descending. -/
def suggestJoinKeys (leftCols rightCols : List Column) : List Suggestion :=
  sortDescBy (fun s => s.confidence)
    (leftCols.flatMap fun lc => rightCols.filterMap fun rc => pairSuggestion lc rc)

/-- One chart recommendation `{ type, score, reason }`.  Chart types are the
string constants of the `ChartType` table in src/types (each equal to its own
name). -/
structure Recommendation where
  type : String
  score : Nat
  reason : String
  deriving DecidableEq, Repr

/-- The rule block of `recommendCharts`, as a function of the three effective
counts: every `add(type, score, reason)` call becomes a list element guarded
by its rule's condition, in source order, ending with the unconditional table
entry. -/
def scoresFor (effectiveNumeric effectiveCategorical effectiveDate : Nat) :
    List Recommendation :=
  (if 1 ≤ effectiveCategorical ∧ 1 ≤ effectiveNumeric then
    [Recommendation.mk "BAR_CLUSTERED" 90 "Compare values across categories",
     Recommendation.mk "BAR_HORIZONTAL" 82 "Horizontal comparison for readability"] ++
    (if 2 ≤ effectiveNumeric then
      [Recommendation.mk "BAR_STACKED" 85 "Show composition across categories",
       Recommendation.mk "BAR_PERCENT" 78 "Show proportional breakdown"]
     else [])
   else []) ++
  (if 1 ≤ effectiveDate ∧ 1 ≤ effectiveNumeric then
    [Recommendation.mk "LINE_SMOOTH" 95 "Best for time-series trends",
     Recommendation.mk "LINE_STRAIGHT" 88 "Precise trend tracking",
     Recommendation.mk "AREA_SMOOTH" 84 "Time trend with volume emphasis",
     Recommendation.mk "AREA_STACKED" 80 "Stacked area for cumulative trends"]
   else []) ++
  (if 1 ≤ effectiveCategorical ∧ 1 ≤ effectiveNumeric then
    [Recommendation.mk "LINE_SMOOTH" 70 "Trend across categories",
     Recommendation.mk "AREA_SMOOTH" 65 "Area trend across categories"]
   else []) ++
  (if 1 ≤ effectiveCategorical ∧ 1 ≤ effectiveNumeric then
    [Recommendation.mk "PIE" 75 "Show proportions of a whole",
     Recommendation.mk "DONUT" 74 "Proportions with a clean center",
     Recommendation.mk "TREEMAP" 68 "Hierarchical proportions",
     Recommendation.mk "ROSE" 60 "Polar proportional chart",
     Recommendation.mk "SUNBURST" 55 "Nested category breakdown"]
   else []) ++
  (if 2 ≤ effectiveNumeric then
    [Recommendation.mk "SCATTER" 85 "Correlation between two measures"] ++
    (if 3 ≤ effectiveNumeric then
      [Recommendation.mk "BUBBLE" 80 "Three-variable relationship"]
     else [])
   else []) ++
  (if 1 ≤ effectiveCategorical ∧ 3 ≤ effectiveNumeric then
    [Recommendation.mk "RADAR" 72 "Multi-metric profile comparison",
     Recommendation.mk "RADIAL_BAR" 60 "Radial metric comparison"]
   else []) ++
  (if 1 ≤ effectiveCategorical ∧ 2 ≤ effectiveNumeric then
    [Recommendation.mk "COMBO_BAR_LINE" 82 "Compare bar + trend line",
     Recommendation.mk "COMBO_AREA_LINE" 70 "Area + line overlay"]
   else []) ++
  (if 1 ≤ effectiveNumeric then
    [Recommendation.mk "KPI_SINGLE" 60 "Display a single key metric",
     Recommendation.mk "GAUGE" 55 "Gauge indicator for a metric",
     Recommendation.mk "SPARKLINE" 50 "Compact inline trend"]
   else []) ++
  (if 2 ≤ effectiveCategorical ∧ 1 ≤ effectiveNumeric then
    [Recommendation.mk "HEATMAP" 75 "Density of values in a matrix"]
   else []) ++
  [Recommendation.mk "TABLE" 40 "Raw data table view"]

/-- JS `!!dimension`: the dimension counts only when present and non-empty
(the empty string is falsy). -/
def hasDimension : Option String → Bool
  | none => false
  | some s => s ≠ ""

/-- JS `measures?.length || 0`. -/
def measureCount : Option (List String) → Nat
  | none => 0
  | some l => l.length

/-- The raw score list produced by `recommendCharts` before de-duplication:
profile the columns, derive the effective counts, and run the rule block. -/
def recommendScores (columns : List Column) (dimension : Option String)
    (measures : Option (List String)) : List Recommendation :=
  let numericCols := columns.filter fun c => c.type = ColType.number
  let categoricalCols := columns.filter fun c => c.type = ColType.string
  let dateCols := columns.filter fun c => c.type = ColType.date
  let effectiveNumeric :=
    if 0 < measureCount measures then measureCount measures else numericCols.length
  let effectiveCategorical :=
    if hasDimension dimension then 1 else categoricalCols.length
  scoresFor effectiveNumeric effectiveCategorical dateCols.length

/-- One step of the de-duplication object build in `recommendCharts`:
`if (!deduped[s.type] || deduped[s.type].score < s.score) deduped[s.type] = s`
(replace in place, else append — JS object keys keep insertion order). -/
def dedupStep (m : List Recommendation) (s : Recommendation) : List Recommendation :=
  if m.any (fun r => r.type = s.type) then
    m.map fun r => if r.type = s.type ∧ r.score < s.score then s else r
  else
    m ++ [s]

/-- The de-duplication pass of `recommendCharts`: keep, per chart type, the
highest score (first rule wins on an exact tie), in first-seen type order. -/
def dedupByType (l : List Recommendation) : List Recommendation :=
  l.foldl dedupStep []

/-- `recommendCharts` from chartRecommender.js. -/
def recommendCharts (columns : List Column) (dimension : Option String)
    (measures : Option (List String)) : List Recommendation :=
  sortDescBy (fun r => r.score) (dedupByType (recommendScores columns dimension measures))

/-- The normalized join key of a row at a key column. -/
abbrev joinKeyOf (row : Row) (key : String) : String :=
  normalizeKey (rowGet row key)

/-- The right rows whose normalized key equals `k` (the content of the
`rightMap` entry for `k`), in original right-dataset order. -/
def matchesOf (rightData : List Row) (rightKey : String) (k : String) : List Row :=
  rightData.filter fun row => joinKeyOf row rightKey == k

/-- The per-left-row block of output rows of a non-append join. -/
def joinEmit (rd : List Row) (rk lk : String) (jt : JoinType)
    (lcs : List Column) (rrc : List MergedCol) (lr : Row) : List Row :=
  if (matchesOf rd rk (joinKeyOf lr lk)).isEmpty then
    if jt = JoinType.left ∨ jt = JoinType.full then
      [buildMergedRow (some lr) none lcs rrc]
    else []
  else
    (matchesOf rd rk (joinKeyOf lr lk)).map fun rr =>
      buildMergedRow (some lr) (some rr) lcs rrc

/-- The used-right-keys update contributed by one left row. -/
def usedStep (rd : List Row) (rk lk : String) (u : List String) (lr : Row) :
    List String :=
  if (matchesOf rd rk (joinKeyOf lr lk)).isEmpty then u
  else addUsedKey u (joinKeyOf lr lk)

/- ── Lemmas about the stable descending sort ───────────────────────── -/

theorem perm_insertDescBy {α : Type} (key : α → Nat) (x : α) (l : List α) :
    List.Perm (insertDescBy key x l) (x :: l) := by
  induction l with
  | nil => exact List.Perm.refl _
  | cons y ys ih =>
    simp only [insertDescBy]
    split
    · exact List.Perm.refl _
    · exact (ih.cons y).trans (List.Perm.swap x y ys)

theorem perm_sortDescBy {α : Type} (key : α → Nat) (l : List α) :
    List.Perm (sortDescBy key l) l := by
  induction l with
  | nil => exact List.Perm.refl _
  | cons x xs ih => exact (perm_insertDescBy key x _).trans (ih.cons x)

theorem sorted_insertDescBy {α : Type} (key : α → Nat) (x : α) (l : List α)
    (h : l.Pairwise fun a b => key b ≤ key a) :
    (insertDescBy key x l).Pairwise fun a b => key b ≤ key a := by
  induction l with
  | nil => simp [insertDescBy]
  | cons y ys ih =>
    obtain ⟨hy, hys⟩ := List.pairwise_cons.mp h
    simp only [insertDescBy]
    split
    · rename_i hle
      refine List.pairwise_cons.mpr ⟨?_, h⟩
      intro b hb
      rcases List.mem_cons.mp hb with rfl | hb
      · exact hle
      · exact le_trans (hy b hb) hle
    · rename_i hgt
      push_neg at hgt
      refine List.pairwise_cons.mpr ⟨?_, ih hys⟩
      intro b hb
      rcases List.mem_cons.mp ((perm_insertDescBy key x ys).mem_iff.mp hb) with rfl | hb
      · exact le_of_lt hgt
      · exact hy b hb

theorem sorted_sortDescBy {α : Type} (key : α → Nat) (l : List α) :
    (sortDescBy key l).Pairwise fun a b => key b ≤ key a := by
  induction l with
  | nil => simp [sortDescBy]
  | cons x xs ih => exact sorted_insertDescBy key x _ ih

/- ── Lemmas about the de-duplication pass ──────────────────────────── -/

theorem map_type_dedupStep (m : List Recommendation) (s : Recommendation) :
    (dedupStep m s).map Recommendation.type =
      if m.any (fun r => r.type = s.type) then m.map Recommendation.type
      else m.map Recommendation.type ++ [s.type] := by
  unfold dedupStep
  split
  · rw [List.map_map]
    apply List.map_congr_left
    intro r _
    dsimp only [Function.comp]
    split
    · rename_i hc; exact hc.1.symm
    · rfl
  · rw [List.map_append]
    rfl

theorem dedup_foldl_invariant (l : List Recommendation) :
    ∀ (p m : List Recommendation),
      ((m.map Recommendation.type).Nodup) →
      (∀ r ∈ m, r ∈ p ∧ ∀ s ∈ p, s.type = r.type → s.score ≤ r.score) →
      (∀ s ∈ p, ∃ r ∈ m, r.type = s.type) →
      ((List.foldl dedupStep m l).map Recommendation.type).Nodup ∧
      (∀ r ∈ List.foldl dedupStep m l,
        r ∈ p ++ l ∧ ∀ s ∈ p ++ l, s.type = r.type → s.score ≤ r.score) ∧
      (∀ s ∈ p ++ l, ∃ r ∈ List.foldl dedupStep m l, r.type = s.type) := by
  induction l with
  | nil =>
    intro p m h1 h2 h3
    simpa using ⟨h1, h2, h3⟩
  | cons s rest ih =>
    intro p m h1 h2 h3
    have hmain := ih (p ++ [s]) (dedupStep m s) ?_ ?_ ?_
    · rw [List.foldl_cons]
      refine ⟨hmain.1, ?_, ?_⟩
      · intro r hr
        have := hmain.2.1 r hr
        rwa [List.append_assoc, List.singleton_append] at this
      · intro t ht
        apply hmain.2.2
        rwa [List.append_assoc, List.singleton_append]
    · -- Nodup of types is preserved
      rw [map_type_dedupStep]
      split
      · exact h1
      · rename_i hp
        rw [List.nodup_append]
        refine ⟨h1, List.nodup_singleton _, ?_⟩
        intro t htm
        obtain ⟨r, hrm, hrt⟩ := List.mem_map.mp htm
        simp only [List.mem_singleton]
        intro hts
        subst hts
        exact hp (List.any_eq_true.mpr ⟨r, hrm, decide_eq_true (hrt ▸ rfl)⟩)
    · -- membership + maximality is preserved
      intro r hr
      unfold dedupStep at hr
      split at hr
      · rename_i hp
        obtain ⟨r0, hr0m, hr0e⟩ := List.mem_map.mp hr
        by_cases hc : r0.type = s.type ∧ r0.score < s.score
        · rw [if_pos hc] at hr0e
          subst hr0e
          refine ⟨List.mem_append_right _ (List.mem_singleton.mpr rfl), ?_⟩
          intro t ht hts
          rcases List.mem_append.mp ht with htp | hts'
          · have := (h2 r0 hr0m).2 t htp (hts.trans hc.1.symm)
            exact le_trans this (le_of_lt hc.2)
          · rw [List.mem_singleton.mp hts']
        · rw [if_neg hc] at hr0e
          subst hr0e
          refine ⟨List.mem_append_left _ (h2 r0 hr0m).1, ?_⟩
          intro t ht hts
          rcases List.mem_append.mp ht with htp | hts'
          · exact (h2 r0 hr0m).2 t htp hts
          · rw [List.mem_singleton.mp hts'] at hts ⊢
            by_cases hty : r0.type = s.type
            · have : ¬ r0.score < s.score := fun hlt => hc ⟨hty, hlt⟩
              omega
            · exact absurd hts.symm hty
      · rename_i hp
        rcases List.mem_append.mp hr with hrm | hrs
        · refine ⟨List.mem_append_left _ (h2 r hrm).1, ?_⟩
          intro t ht hts
          rcases List.mem_append.mp ht with htp | hts'
          · exact (h2 r hrm).2 t htp hts
          · rw [List.mem_singleton.mp hts'] at hts
            exact absurd (List.any_eq_true.mpr ⟨r, hrm, decide_eq_true hts.symm⟩) hp
        · rw [List.mem_singleton.mp hrs]
          refine ⟨List.mem_append_right _ (List.mem_singleton.mpr rfl), ?_⟩
          intro t ht hts
          rcases List.mem_append.mp ht with htp | hts'
          · obtain ⟨r0, hr0m, hr0t⟩ := h3 t htp
            exact absurd (List.any_eq_true.mpr ⟨r0, hr0m, decide_eq_true (hr0t.trans hts)⟩) hp
          · rw [List.mem_singleton.mp hts']
    · -- coverage is preserved
      intro t ht
      rcases List.mem_append.mp ht with htp | hts
      · obtain ⟨r0, hr0m, hr0t⟩ := h3 t htp
        unfold dedupStep
        split
        · refine ⟨if r0.type = s.type ∧ r0.score < s.score then s else r0,
            List.mem_map_of_mem _ hr0m, ?_⟩
          split
          · rename_i hc; exact hc.1.symm.trans hr0t
          · exact hr0t
        · exact ⟨r0, List.mem_append_left _ hr0m, hr0t⟩
      · rw [List.mem_singleton.mp hts]
        unfold dedupStep
        split
        · rename_i hp
          obtain ⟨r0, hr0m, hr0d⟩ := List.any_eq_true.mp hp
          have hr0t : r0.type = s.type := of_decide_eq_true hr0d
          refine ⟨if r0.type = s.type ∧ r0.score < s.score then s else r0,
            List.mem_map_of_mem _ hr0m, ?_⟩
          split
          · rfl
          · exact hr0t
        · exact ⟨s, List.mem_append_right _ (List.mem_singleton.mpr rfl), rfl⟩

/- ── Characterizing the right-side lookup map ──────────────────────── -/

theorem contains_iff_mem {l : List String} {a : String} :
    l.contains a = true ↔ a ∈ l := by
  simp [List.contains]

theorem mapGet_insertRight (m : List (String × List Row)) (k' k : String) (row : Row) :
    mapGet (insertRight m k' row) k =
      if k = k' then some (((mapGet m k).getD []) ++ [row]) else mapGet m k := by
  induction m with
  | nil =>
    by_cases h : k = k'
    · subst h
      simp [insertRight, mapGet]
    · have h' : ¬ k' = k := fun hh => h hh.symm
      simp [insertRight, mapGet, h, h']
  | cons p rest ih =>
    obtain ⟨k2, rows⟩ := p
    simp only [insertRight]
    by_cases h2 : k2 = k'
    · subst h2
      rw [if_pos rfl]
      by_cases h : k = k2
      · subst h
        simp [mapGet]
      · have h' : ¬ k2 = k := fun hh => h hh.symm
        simp [mapGet, h, h']
    · rw [if_neg h2]
      by_cases h3 : k2 = k
      · subst h3
        simp [mapGet, h2]
      · simp [mapGet, h3, ih]

theorem mapGet_foldl_insert (rk : String) (rows : List Row) :
    ∀ (m : List (String × List Row)) (p : List Row),
      (∀ k, mapGet m k =
        if (matchesOf p rk k).isEmpty then none else some (matchesOf p rk k)) →
      ∀ k,
        mapGet (rows.foldl
          (fun m row => insertRight m (normalizeKey (rowGet row rk)) row) m) k =
        if (matchesOf (p ++ rows) rk k).isEmpty then none
        else some (matchesOf (p ++ rows) rk k) := by
  induction rows with
  | nil =>
    intro m p h k
    simpa using h k
  | cons r rest ih =>
    intro m p h k
    rw [List.foldl_cons, List.append_cons]
    apply ih
    intro k2
    rw [mapGet_insertRight]
    have hm : matchesOf (p ++ [r]) rk k2 =
        matchesOf p rk k2 ++ if (joinKeyOf r rk == k2) = true then [r] else [] := by
      simp only [matchesOf, List.filter_append, List.filter_cons, List.filter_nil]
    by_cases hk : k2 = normalizeKey (rowGet r rk)
    · rw [if_pos hk]
      have hbeq : (joinKeyOf r rk == k2) = true := by
        simp [joinKeyOf, hk]
      rw [hm, hbeq]
      have hmg := h k2
      by_cases he : (matchesOf p rk k2).isEmpty
      · rw [if_pos he] at hmg
        rw [hmg, List.isEmpty_iff.mp he]
        simp
      · rw [if_neg he] at hmg
        rw [hmg]
        simp
    · rw [if_neg hk]
      have hbeq : (joinKeyOf r rk == k2) = false := by
        simp only [joinKeyOf, beq_eq_false_iff_ne, ne_eq]
        exact fun hh => hk hh.symm
      rw [hm, hbeq]
      simp [h k2]

theorem buildRightMap_spec (rd : List Row) (rk k : String) :
    mapGet (buildRightMap rd rk) k =
      if (matchesOf rd rk k).isEmpty then none else some (matchesOf rd rk k) := by
  have := mapGet_foldl_insert rk rd [] []
    (by intro k2; simp [matchesOf, mapGet]) k
  simpa [buildRightMap] using this

/- ── Characterizing the two join passes ────────────────────────────── -/

theorem leftPass_cons_some (rightMap : List (String × List Row)) (lk : String)
    (jt : JoinType) (lcs : List Column) (rrc : List MergedCol)
    (lr : Row) (rest : List Row) (used : List String) (acc : List Row)
    (ms : List Row)
    (h : mapGet rightMap (normalizeKey (rowGet lr lk)) = some ms) :
    leftPass rightMap lk jt lcs rrc (lr :: rest) used acc =
      if 0 < ms.length then
        leftPass rightMap lk jt lcs rrc rest
          (addUsedKey used (normalizeKey (rowGet lr lk)))
          (acc ++ ms.map fun rr => buildMergedRow (some lr) (some rr) lcs rrc)
      else if jt = JoinType.left ∨ jt = JoinType.full then
        leftPass rightMap lk jt lcs rrc rest used
          (acc ++ [buildMergedRow (some lr) none lcs rrc])
      else
        leftPass rightMap lk jt lcs rrc rest used acc := by
  show (match mapGet rightMap (normalizeKey (rowGet lr lk)) with
      | some ms =>
        if 0 < ms.length then
          leftPass rightMap lk jt lcs rrc rest
            (addUsedKey used (normalizeKey (rowGet lr lk)))
            (acc ++ ms.map fun rr => buildMergedRow (some lr) (some rr) lcs rrc)
        else if jt = JoinType.left ∨ jt = JoinType.full then
          leftPass rightMap lk jt lcs rrc rest used
            (acc ++ [buildMergedRow (some lr) none lcs rrc])
        else
          leftPass rightMap lk jt lcs rrc rest used acc
      | none =>
        if jt = JoinType.left ∨ jt = JoinType.full then
          leftPass rightMap lk jt lcs rrc rest used
            (acc ++ [buildMergedRow (some lr) none lcs rrc])
        else
          leftPass rightMap lk jt lcs rrc rest used acc) = _
  rw [h]

theorem leftPass_cons_none (rightMap : List (String × List Row)) (lk : String)
    (jt : JoinType) (lcs : List Column) (rrc : List MergedCol)
    (lr : Row) (rest : List Row) (used : List String) (acc : List Row)
    (h : mapGet rightMap (normalizeKey (rowGet lr lk)) = none) :
    leftPass rightMap lk jt lcs rrc (lr :: rest) used acc =
      if jt = JoinType.left ∨ jt = JoinType.full then
        leftPass rightMap lk jt lcs rrc rest used
          (acc ++ [buildMergedRow (some lr) none lcs rrc])
      else
        leftPass rightMap lk jt lcs rrc rest used acc := by
  show (match mapGet rightMap (normalizeKey (rowGet lr lk)) with
      | some ms =>
        if 0 < ms.length then
          leftPass rightMap lk jt lcs rrc rest
            (addUsedKey used (normalizeKey (rowGet lr lk)))
            (acc ++ ms.map fun rr => buildMergedRow (some lr) (some rr) lcs rrc)
        else if jt = JoinType.left ∨ jt = JoinType.full then
          leftPass rightMap lk jt lcs rrc rest used
            (acc ++ [buildMergedRow (some lr) none lcs rrc])
        else
          leftPass rightMap lk jt lcs rrc rest used acc
      | none =>
        if jt = JoinType.left ∨ jt = JoinType.full then
          leftPass rightMap lk jt lcs rrc rest used
            (acc ++ [buildMergedRow (some lr) none lcs rrc])
        else
          leftPass rightMap lk jt lcs rrc rest used acc) = _
  rw [h]

theorem leftPass_eq (rd : List Row) (rk lk : String) (jt : JoinType)
    (lcs : List Column) (rrc : List MergedCol) :
    ∀ (lrs : List Row) (used : List String) (acc : List Row),
      leftPass (buildRightMap rd rk) lk jt lcs rrc lrs used acc =
        (lrs.foldl (usedStep rd rk lk) used,
         acc ++ lrs.flatMap (joinEmit rd rk lk jt lcs rrc)) := by
  intro lrs
  induction lrs with
  | nil => intro used acc; simp [leftPass]
  | cons lr rest ih =>
    intro used acc
    by_cases hm : (matchesOf rd rk (joinKeyOf lr lk)).isEmpty = true
    · have hnone : mapGet (buildRightMap rd rk) (normalizeKey (rowGet lr lk)) = none := by
        rw [buildRightMap_spec, if_pos hm]
      rw [leftPass_cons_none _ _ _ _ _ _ _ _ _ hnone]
      rw [List.foldl_cons, List.flatMap_cons]
      have hused : usedStep rd rk lk used lr = used := by
        unfold usedStep; rw [if_pos hm]
      have hemit : joinEmit rd rk lk jt lcs rrc lr =
          if jt = JoinType.left ∨ jt = JoinType.full then
            [buildMergedRow (some lr) none lcs rrc]
          else [] := by
        unfold joinEmit; rw [if_pos hm]
      rw [hused, hemit]
      by_cases hj : jt = JoinType.left ∨ jt = JoinType.full
      · rw [if_pos hj, if_pos hj, ih]
        simp
      · rw [if_neg hj, if_neg hj, ih]
        simp
    · have hsome : mapGet (buildRightMap rd rk) (normalizeKey (rowGet lr lk)) =
          some (matchesOf rd rk (joinKeyOf lr lk)) := by
        rw [buildRightMap_spec, if_neg hm]
      have hlen : 0 < (matchesOf rd rk (joinKeyOf lr lk)).length := by
        rw [List.length_pos]
        exact fun hnil => hm (List.isEmpty_iff.mpr hnil)
      rw [leftPass_cons_some _ _ _ _ _ _ _ _ _ _ hsome, if_pos hlen, ih]
      rw [List.foldl_cons, List.flatMap_cons]
      have hused : usedStep rd rk lk used lr = addUsedKey used (joinKeyOf lr lk) := by
        unfold usedStep; rw [if_neg hm]
      have hemit : joinEmit rd rk lk jt lcs rrc lr =
          (matchesOf rd rk (joinKeyOf lr lk)).map fun rr =>
            buildMergedRow (some lr) (some rr) lcs rrc := by
        unfold joinEmit; rw [if_neg hm]
      rw [hused, hemit]
      simp

theorem rightPass_eq (rk : String) (used : List String)
    (lcs : List Column) (rrc : List MergedCol) :
    ∀ (rrs : List Row),
      rightPass rk used lcs rrc rrs =
        (rrs.filter fun rr => !used.contains (joinKeyOf rr rk)).map
          (fun rr => buildMergedRow none (some rr) lcs rrc) := by
  intro rrs
  induction rrs with
  | nil => simp [rightPass]
  | cons rr rest ih =>
    simp only [rightPass, List.filter_cons]
    by_cases hc : used.contains (joinKeyOf rr rk) = true
    · rw [if_pos hc, ih, hc]
      simp
    · have hc' : used.contains (joinKeyOf rr rk) = false :=
        Bool.eq_false_iff.mpr hc
      rw [if_neg hc, ih, hc']
      simp

theorem mem_addUsedKey (u : List String) (k' k : String) :
    k ∈ addUsedKey u k' ↔ k ∈ u ∨ k = k' := by
  unfold addUsedKey
  split
  · rename_i h
    constructor
    · exact Or.inl
    · rintro (h2 | rfl)
      · exact h2
      · exact contains_iff_mem.mp h
  · simp

theorem mem_usedFold (rd : List Row) (rk lk : String) :
    ∀ (lrs : List Row) (used : List String) (k : String),
      k ∈ lrs.foldl (usedStep rd rk lk) used ↔
        k ∈ used ∨ ∃ lr ∈ lrs, joinKeyOf lr lk = k ∧
          ¬ (matchesOf rd rk (joinKeyOf lr lk)).isEmpty = true := by
  intro lrs
  induction lrs with
  | nil => intro used k; simp
  | cons lr rest ih =>
    intro used k
    rw [List.foldl_cons, ih]
    by_cases hm : (matchesOf rd rk (joinKeyOf lr lk)).isEmpty = true
    · rw [show usedStep rd rk lk used lr = used from by unfold usedStep; rw [if_pos hm]]
      constructor
      · rintro (h | ⟨x, hx, h1, h2⟩)
        · exact Or.inl h
        · exact Or.inr ⟨x, List.mem_cons_of_mem _ hx, h1, h2⟩
      · rintro (h | ⟨x, hx, h1, h2⟩)
        · exact Or.inl h
        · rcases List.mem_cons.mp hx with rfl | hx2
          · exact absurd hm h2
          · exact Or.inr ⟨x, hx2, h1, h2⟩
    · rw [show usedStep rd rk lk used lr = addUsedKey used (joinKeyOf lr lk) from by
        unfold usedStep; rw [if_neg hm]]
      constructor
      · rintro (h | ⟨x, hx, h1, h2⟩)
        · rcases (mem_addUsedKey used (joinKeyOf lr lk) k).mp h with h2 | h2
          · exact Or.inl h2
          · exact Or.inr ⟨lr, List.mem_cons_self _ _, h2.symm, hm⟩
        · exact Or.inr ⟨x, List.mem_cons_of_mem _ hx, h1, h2⟩
      · rintro (h | ⟨x, hx, h1, h2⟩)
        · exact Or.inl ((mem_addUsedKey used (joinKeyOf lr lk) k).mpr (Or.inl h))
        · rcases List.mem_cons.mp hx with heq | hx2
          · exact Or.inl ((mem_addUsedKey used (joinKeyOf lr lk) k).mpr
              (Or.inr (heq ▸ h1).symm))
          · exact Or.inr ⟨x, hx2, h1, h2⟩

/-- The rows of every non-append join: one block per left row in original
order (cross product with its matches, else a null-right row for left/full),
followed — for right/full — by one null-left row per right row whose
normalized key matches no left row. -/
theorem mergeDatasets_join_data (ld rd : List Row) (lcs rcs : List Column)
    (lk rk : String) (jt : JoinType) (hjt : ¬ jt = JoinType.append) :
    (mergeDatasets ld rd lcs rcs lk rk jt).data =
      ld.flatMap (joinEmit rd rk lk jt lcs (renamedRightCols lcs rcs rk)) ++
      (if jt = JoinType.right ∨ jt = JoinType.full then
        (rd.filter fun rr => !ld.any fun lr => joinKeyOf lr lk == joinKeyOf rr rk).map
          (fun rr => buildMergedRow none (some rr) lcs (renamedRightCols lcs rcs rk))
       else []) := by
  unfold mergeDatasets
  rw [if_neg hjt]
  simp only [leftPass_eq rd rk lk jt lcs (renamedRightCols lcs rcs rk) ld [] []]
  by_cases hj : jt = JoinType.right ∨ jt = JoinType.full
  · rw [if_pos hj, if_pos hj]
    simp only [List.nil_append]
    congr 1
    rw [rightPass_eq]
    congr 1
    apply List.filter_congr
    intro rr hrr
    congr 1
    rw [Bool.eq_iff_iff]
    rw [contains_iff_mem, mem_usedFold rd rk lk ld [] (joinKeyOf rr rk)]
    simp only [List.not_mem_nil, false_or]
    rw [List.any_eq_true]
    constructor
    · rintro ⟨lr, hlr, h1, _⟩
      exact ⟨lr, hlr, by simp [h1]⟩
    · rintro ⟨lr, hlr, hbeq⟩
      have h1 : joinKeyOf lr lk = joinKeyOf rr rk := by
        simpa using hbeq
      refine ⟨lr, hlr, h1, ?_⟩
      intro hemp
      have hmem : rr ∈ matchesOf rd rk (joinKeyOf lr lk) := by
        rw [matchesOf, List.mem_filter]
        exact ⟨hrr, by simp [h1]⟩
      rw [List.isEmpty_iff.mp hemp] at hmem
      exact List.not_mem_nil rr hmem
  · rw [if_neg hj, if_neg hj]
    simp

/- ── Characterizing the append path ────────────────────────────────── -/

theorem rowGet_rowSet (r : Row) (k : String) (v : Value) (k2 : String) :
    rowGet (rowSet r k v) k2 = if k = k2 then some v else rowGet r k2 := by
  induction r with
  | nil =>
    by_cases h : k = k2
    · simp [rowSet, rowGet, h]
    · have h' : ¬ k = k2 := h
      simp [rowSet, rowGet, h']
  | cons p rest ih =>
    obtain ⟨k', v'⟩ := p
    simp only [rowSet]
    by_cases h1 : k' = k
    · subst h1
      by_cases h : k' = k2
      · simp [rowGet, h]
      · simp [rowGet, h]
    · rw [if_neg h1]
      by_cases h2 : k' = k2
      · subst h2
        have : ¬ k = k' := fun hh => h1 hh.symm
        simp [rowGet, this]
      · simp [rowGet, h2, ih]

theorem rowGet_foldl_rowSet (val : String → Value) :
    ∀ (names : List String) (out : Row) (k : String),
      rowGet (names.foldl (fun out name => rowSet out name (val name)) out) k =
        if k ∈ names then some (val k) else rowGet out k := by
  intro names
  induction names with
  | nil => intro out k; simp
  | cons n rest ih =>
    intro out k
    rw [List.foldl_cons, ih]
    by_cases hk : k ∈ rest
    · rw [if_pos hk, if_pos (List.mem_cons_of_mem _ hk)]
    · rw [if_neg hk]
      rw [rowGet_rowSet]
      by_cases hn : k = n
      · subst hn
        rw [if_pos rfl, if_pos (List.mem_cons_self _ _)]
      · have : ¬ n = k := fun hh => hn hh.symm
        rw [if_neg this, if_neg (by
          intro hmem
          rcases List.mem_cons.mp hmem with h | h
          · exact hn h
          · exact hk h)]

theorem rowGet_normalizeRowTo (names : List String) (row : Row) (k : String) :
    rowGet (normalizeRowTo names row) k =
      if k ∈ names then some ((rowGet row k).getD Value.vNull) else none := by
  unfold normalizeRowTo
  rw [rowGet_foldl_rowSet (fun name => (rowGet row name).getD Value.vNull) names [] k]
  simp [rowGet]

theorem foldl_colMapSet_of_nodup :
    ∀ (l m : List Column),
      (∀ c ∈ l, ∀ c2 ∈ m, ¬ c2.name = c.name) →
      ((l.map Column.name).Nodup) →
      l.foldl colMapSet m = m ++ l := by
  intro l
  induction l with
  | nil => intro m _ _; simp
  | cons c rest ih =>
    intro m hdisj hnodup
    rw [List.map_cons, List.nodup_cons] at hnodup
    have hset : colMapSet m c = m ++ [c] := by
      unfold colMapSet
      rw [if_neg]
      intro hany
      obtain ⟨c2, hc2, hc2e⟩ := List.any_eq_true.mp hany
      exact hdisj c (List.mem_cons_self _ _) c2 hc2 (of_decide_eq_true hc2e)
    have h1 : ∀ c' ∈ rest, ∀ c2 ∈ m ++ [c], ¬ c2.name = c'.name := by
      intro c' hc' c2 hc2
      rcases List.mem_append.mp hc2 with h | h
      · exact hdisj c' (List.mem_cons_of_mem _ hc') c2 h
      · rw [List.mem_singleton.mp h]
        intro he
        exact hnodup.1 (he ▸ List.mem_map_of_mem Column.name hc')
    rw [List.foldl_cons, hset, ih (m ++ [c]) h1 hnodup.2, List.append_assoc,
      List.singleton_append]

theorem foldl_rightUnion_of_nodup :
    ∀ (rcs m : List Column),
      ((rcs.map Column.name).Nodup) →
      rcs.foldl (fun m c => if m.any (fun c2 => c2.name = c.name) then m else m ++ [c]) m =
        m ++ rcs.filter (fun c => !m.any (fun c2 => c2.name = c.name)) := by
  intro rcs
  induction rcs with
  | nil => intro m _; simp
  | cons c rest ih =>
    intro m hnodup
    rw [List.map_cons, List.nodup_cons] at hnodup
    rw [List.foldl_cons, List.filter_cons]
    by_cases hp : m.any (fun c2 => c2.name = c.name) = true
    · rw [if_pos hp, ih _ hnodup.2]
      have hb : (!m.any fun c2 => decide (c2.name = c.name)) = false := by
        rw [hp]; rfl
      rw [hb]
      simp
    · rw [if_neg hp, ih _ hnodup.2]
      have hb : (!m.any fun c2 => decide (c2.name = c.name)) = true := by
        rw [Bool.eq_false_iff.mpr hp]; rfl
      rw [hb, if_pos rfl]
      have hfil : List.filter (fun c' => !(m ++ [c]).any fun c2 => c2.name = c'.name) rest
          = List.filter (fun c' => !m.any fun c2 => c2.name = c'.name) rest := by
        apply List.filter_congr
        intro c' hc'
        congr 1
        rw [List.any_append]
        have hone : ([c].any fun c2 => decide (c2.name = c'.name)) = false := by
          simp only [List.any_cons, List.any_nil, Bool.or_false]
          rw [decide_eq_false]
          intro he
          exact hnodup.1 (he ▸ List.mem_map_of_mem Column.name hc')
        rw [hone, Bool.or_false]
      rw [hfil, List.append_assoc, List.singleton_append]

theorem unionColumns_eq (lcs rcs : List Column)
    (hl : (lcs.map Column.name).Nodup) (hr : (rcs.map Column.name).Nodup) :
    unionColumns lcs rcs =
      lcs ++ rcs.filter (fun c => !lcs.any (fun c2 => c2.name = c.name)) := by
  unfold unionColumns
  rw [foldl_colMapSet_of_nodup lcs [] (by intro c _ c2 hc2; cases hc2) hl,
    List.nil_append, foldl_rightUnion_of_nodup rcs lcs hr]

/- ── Supporting lemmas for the recommender ─────────────────────────── -/

theorem mem_ite_nil {α : Type} {c : Prop} [Decidable c] {l : List α} {a : α}
    (h : a ∈ (if c then l else [])) : a ∈ l := by
  by_cases hc : c
  · rwa [if_pos hc] at h
  · rw [if_neg hc] at h
    exact absurd h (List.not_mem_nil a)

/-- The unconditional table entry is the only rule output typed `TABLE`. -/
theorem scoresFor_table_unique {a b c : Nat} {s : Recommendation}
    (h : s ∈ scoresFor a b c) (ht : s.type = "TABLE") :
    s = Recommendation.mk "TABLE" 40 "Raw data table view" := by
  unfold scoresFor at h
  simp only [List.mem_append] at h
  rcases h with (((((((((h|h)|h)|h)|h)|h)|h)|h)|h)|h)
  · replace h := mem_ite_nil h
    rcases List.mem_append.mp h with h|h
    · simp only [List.mem_cons, List.not_mem_nil, or_false] at h
      rcases h with rfl|rfl <;> exact absurd ht (by decide)
    · replace h := mem_ite_nil h
      simp only [List.mem_cons, List.not_mem_nil, or_false] at h
      rcases h with rfl|rfl <;> exact absurd ht (by decide)
  · replace h := mem_ite_nil h
    simp only [List.mem_cons, List.not_mem_nil, or_false] at h
    rcases h with rfl|rfl|rfl|rfl <;> exact absurd ht (by decide)
  · replace h := mem_ite_nil h
    simp only [List.mem_cons, List.not_mem_nil, or_false] at h
    rcases h with rfl|rfl <;> exact absurd ht (by decide)
  · replace h := mem_ite_nil h
    simp only [List.mem_cons, List.not_mem_nil, or_false] at h
    rcases h with rfl|rfl|rfl|rfl|rfl <;> exact absurd ht (by decide)
  · replace h := mem_ite_nil h
    rcases List.mem_append.mp h with h|h
    · simp only [List.mem_cons, List.not_mem_nil, or_false] at h
      rcases h with rfl <;> exact absurd ht (by decide)
    · replace h := mem_ite_nil h
      simp only [List.mem_cons, List.not_mem_nil, or_false] at h
      rcases h with rfl <;> exact absurd ht (by decide)
  · replace h := mem_ite_nil h
    simp only [List.mem_cons, List.not_mem_nil, or_false] at h
    rcases h with rfl|rfl <;> exact absurd ht (by decide)
  · replace h := mem_ite_nil h
    simp only [List.mem_cons, List.not_mem_nil, or_false] at h
    rcases h with rfl|rfl <;> exact absurd ht (by decide)
  · replace h := mem_ite_nil h
    simp only [List.mem_cons, List.not_mem_nil, or_false] at h
    rcases h with rfl|rfl|rfl <;> exact absurd ht (by decide)
  · replace h := mem_ite_nil h
    simp only [List.mem_cons, List.not_mem_nil, or_false] at h
    rcases h with rfl <;> exact absurd ht (by decide)
  · simp only [List.mem_cons, List.not_mem_nil, or_false] at h
    exact h ▸ rfl

/-- The table entry is always produced by the rule block. -/
theorem table_mem_scoresFor (a b c : Nat) :
    Recommendation.mk "TABLE" 40 "Raw data table view" ∈ scoresFor a b c := by
  unfold scoresFor
  simp only [List.mem_append]
  exact Or.inr (List.mem_singleton.mpr rfl)

/-- Summary of the de-duplication pass: unique types, members come from the
raw list carrying the maximal score of their type, and every raw type is
covered. -/
theorem dedupByType_spec (l : List Recommendation) :
    ((dedupByType l).map Recommendation.type).Nodup ∧
    (∀ r ∈ dedupByType l, r ∈ l ∧ ∀ s ∈ l, s.type = r.type → s.score ≤ r.score) ∧
    (∀ s ∈ l, ∃ r ∈ dedupByType l, r.type = s.type) := by
  have h := dedup_foldl_invariant l [] []
    (by simp) (by intro r hr; cases hr) (by intro s hs; cases hs)
  unfold dedupByType
  simpa using h

/- ── Join row-count lemmas ─────────────────────────────────────────── -/

theorem joinEmit_eq_of_not_leftfull (rd : List Row) (rk lk : String) (jt : JoinType)
    (lcs : List Column) (rrc : List MergedCol)
    (hj : ¬ (jt = JoinType.left ∨ jt = JoinType.full)) :
    joinEmit rd rk lk jt lcs rrc = fun lr =>
      (matchesOf rd rk (joinKeyOf lr lk)).map fun rr =>
        buildMergedRow (some lr) (some rr) lcs rrc := by
  funext lr
  unfold joinEmit
  by_cases hm : (matchesOf rd rk (joinKeyOf lr lk)).isEmpty = true
  · rw [if_pos hm, if_neg hj, List.isEmpty_iff.mp hm]
    rfl
  · rw [if_neg hm]

theorem joinEmit_eq_of_leftfull (rd : List Row) (rk lk : String) (jt : JoinType)
    (lcs : List Column) (rrc : List MergedCol)
    (hj : jt = JoinType.left ∨ jt = JoinType.full) :
    joinEmit rd rk lk jt lcs rrc = fun lr =>
      if (matchesOf rd rk (joinKeyOf lr lk)).isEmpty then
        [buildMergedRow (some lr) none lcs rrc]
      else
        (matchesOf rd rk (joinKeyOf lr lk)).map fun rr =>
          buildMergedRow (some lr) (some rr) lcs rrc := by
  funext lr
  unfold joinEmit
  by_cases hm : (matchesOf rd rk (joinKeyOf lr lk)).isEmpty = true
  · rw [if_pos hm, if_pos hj, if_pos hm]
  · rw [if_neg hm, if_neg hm]

theorem mergeDatasets_inner_length (ld rd : List Row) (lcs rcs : List Column)
    (lk rk : String) :
    (mergeDatasets ld rd lcs rcs lk rk JoinType.inner).data.length =
      (ld.map fun lr => (matchesOf rd rk (joinKeyOf lr lk)).length).sum := by
  rw [mergeDatasets_join_data ld rd lcs rcs lk rk JoinType.inner (by decide),
    if_neg (by decide), List.append_nil,
    joinEmit_eq_of_not_leftfull rd rk lk JoinType.inner lcs _ (by decide),
    List.length_flatMap]
  congr 1
  apply List.map_congr_left
  intro lr _
  simp [Function.comp]

theorem mergeDatasets_left_length (ld rd : List Row) (lcs rcs : List Column)
    (lk rk : String) :
    (mergeDatasets ld rd lcs rcs lk rk JoinType.left).data.length =
      (ld.map fun lr => Nat.max (matchesOf rd rk (joinKeyOf lr lk)).length 1).sum := by
  rw [mergeDatasets_join_data ld rd lcs rcs lk rk JoinType.left (by decide),
    if_neg (by decide), List.append_nil,
    joinEmit_eq_of_leftfull rd rk lk JoinType.left lcs _ (Or.inl rfl),
    List.length_flatMap]
  congr 1
  apply List.map_congr_left
  intro lr _
  simp only [Function.comp_apply]
  by_cases hm : (matchesOf rd rk (joinKeyOf lr lk)).isEmpty = true
  · rw [if_pos hm, List.isEmpty_iff.mp hm]
    simp
  · rw [if_neg hm, List.length_map]
    have h1 : 1 ≤ (matchesOf rd rk (joinKeyOf lr lk)).length := by
      rw [Nat.one_le_iff_ne_zero, Ne, List.length_eq_zero]
      exact fun hnil => hm (List.isEmpty_iff.mpr hnil)
    exact (Nat.max_eq_left h1).symm

theorem mergeDatasets_full_length (ld rd : List Row) (lcs rcs : List Column)
    (lk rk : String) :
    (mergeDatasets ld rd lcs rcs lk rk JoinType.full).data.length =
      (mergeDatasets ld rd lcs rcs lk rk JoinType.left).data.length +
        (rd.filter fun rr => !ld.any fun lr =>
          joinKeyOf lr lk == joinKeyOf rr rk).length := by
  rw [mergeDatasets_join_data ld rd lcs rcs lk rk JoinType.full (by decide),
    if_pos (Or.inr rfl), List.length_append]
  congr 1
  · rw [mergeDatasets_join_data ld rd lcs rcs lk rk JoinType.left (by decide),
      if_neg (by decide), List.append_nil,
      joinEmit_eq_of_leftfull rd rk lk JoinType.full lcs _ (Or.inr rfl),
      joinEmit_eq_of_leftfull rd rk lk JoinType.left lcs _ (Or.inl rfl)]
  · rw [List.length_map]

/- ── The claims ────────────────────────────────────────────────────── -/

/-- C2: for every dataset pair and fixed keys, the inner-join row count is
the sum over left rows of their right-match counts, the left-join count is
the sum of `max(match count, 1)`, the full-join count is the left-join count
plus one row per right row whose normalized key matched no left row, and
consequently inner ≤ left ≤ full. -/
theorem claim_C2 (ld rd : List Row) (lcs rcs : List Column) (lk rk : String) :
    (mergeDatasets ld rd lcs rcs lk rk JoinType.inner).data.length =
      (ld.map fun lr => (matchesOf rd rk (joinKeyOf lr lk)).length).sum ∧
    (mergeDatasets ld rd lcs rcs lk rk JoinType.left).data.length =
      (ld.map fun lr => Nat.max (matchesOf rd rk (joinKeyOf lr lk)).length 1).sum ∧
    (mergeDatasets ld rd lcs rcs lk rk JoinType.full).data.length =
      (mergeDatasets ld rd lcs rcs lk rk JoinType.left).data.length +
        (rd.filter fun rr => !ld.any fun lr =>
          joinKeyOf lr lk == joinKeyOf rr rk).length ∧
    (mergeDatasets ld rd lcs rcs lk rk JoinType.inner).data.length ≤
      (mergeDatasets ld rd lcs rcs lk rk JoinType.left).data.length ∧
    (mergeDatasets ld rd lcs rcs lk rk JoinType.left).data.length ≤
      (mergeDatasets ld rd lcs rcs lk rk JoinType.full).data.length := by
  refine ⟨mergeDatasets_inner_length ld rd lcs rcs lk rk,
    mergeDatasets_left_length ld rd lcs rcs lk rk,
    mergeDatasets_full_length ld rd lcs rcs lk rk, ?_, ?_⟩
  · rw [mergeDatasets_inner_length, mergeDatasets_left_length]
    apply List.sum_le_sum
    intro lr _
    exact Nat.le_max_left _ _
  · rw [mergeDatasets_full_length]
    exact Nat.le_add_right _ _

/-- C6: in inner and left joins every left row with matches produces exactly
one merged row per matching right row (cross product on duplicate keys), left
rows in original order and, within one left row, right matches in original
right-dataset order; concretely, Scenario D yields exactly two rows carrying
name "A" and vals 10 and 20. -/
theorem claim_C6 :
    (∀ (ld rd : List Row) (lcs rcs : List Column) (lk rk : String),
      (mergeDatasets ld rd lcs rcs lk rk JoinType.inner).data =
        ld.flatMap fun lr =>
          (matchesOf rd rk (joinKeyOf lr lk)).map fun rr =>
            buildMergedRow (some lr) (some rr) lcs (renamedRightCols lcs rcs rk)) ∧
    (∀ (ld rd : List Row) (lcs rcs : List Column) (lk rk : String),
      (mergeDatasets ld rd lcs rcs lk rk JoinType.left).data =
        ld.flatMap fun lr =>
          if (matchesOf rd rk (joinKeyOf lr lk)).isEmpty then
            [buildMergedRow (some lr) none lcs (renamedRightCols lcs rcs rk)]
          else
            (matchesOf rd rk (joinKeyOf lr lk)).map fun rr =>
              buildMergedRow (some lr) (some rr) lcs (renamedRightCols lcs rcs rk)) ∧
    (mergeDatasets [[("id", Value.vNum 1), ("name", Value.vStr "A")]]
        [[("id", Value.vNum 1), ("val", Value.vNum 10)],
         [("id", Value.vNum 1), ("val", Value.vNum 20)]]
        [Column.mk "id" ColType.number, Column.mk "name" ColType.string]
        [Column.mk "id" ColType.number, Column.mk "val" ColType.number]
        "id" "id" JoinType.inner).data =
      [[("id", Value.vNum 1), ("name", Value.vStr "A"), ("val", Value.vNum 10)],
       [("id", Value.vNum 1), ("name", Value.vStr "A"), ("val", Value.vNum 20)]] := by
  refine ⟨?_, ?_, by decide⟩
  · intro ld rd lcs rcs lk rk
    rw [mergeDatasets_join_data ld rd lcs rcs lk rk JoinType.inner (by decide),
      if_neg (by decide), List.append_nil,
      joinEmit_eq_of_not_leftfull rd rk lk JoinType.inner lcs _ (by decide)]
  · intro ld rd lcs rcs lk rk
    rw [mergeDatasets_join_data ld rd lcs rcs lk rk JoinType.left (by decide),
      if_neg (by decide), List.append_nil,
      joinEmit_eq_of_leftfull rd rk lk JoinType.left lcs _ (Or.inl rfl)]

/-- C7: in right and full joins, after the left pass exactly those right rows
whose normalized key matched no left row are emitted, each with all left
fields null; "used" tracking is by normalized key value (the emitted rows are
the right rows whose key equals no left row's key), and Scenario E yields two
rows. -/
theorem claim_C7 :
    (∀ (ld rd : List Row) (lcs rcs : List Column) (lk rk : String),
      (mergeDatasets ld rd lcs rcs lk rk JoinType.right).data =
        (ld.flatMap fun lr =>
          (matchesOf rd rk (joinKeyOf lr lk)).map fun rr =>
            buildMergedRow (some lr) (some rr) lcs (renamedRightCols lcs rcs rk)) ++
        ((rd.filter fun rr => !ld.any fun lr =>
            joinKeyOf lr lk == joinKeyOf rr rk).map fun rr =>
          buildMergedRow none (some rr) lcs (renamedRightCols lcs rcs rk))) ∧
    (∀ (ld rd : List Row) (lcs rcs : List Column) (lk rk : String),
      (mergeDatasets ld rd lcs rcs lk rk JoinType.full).data =
        (ld.flatMap fun lr =>
          if (matchesOf rd rk (joinKeyOf lr lk)).isEmpty then
            [buildMergedRow (some lr) none lcs (renamedRightCols lcs rcs rk)]
          else
            (matchesOf rd rk (joinKeyOf lr lk)).map fun rr =>
              buildMergedRow (some lr) (some rr) lcs (renamedRightCols lcs rcs rk)) ++
        ((rd.filter fun rr => !ld.any fun lr =>
            joinKeyOf lr lk == joinKeyOf rr rk).map fun rr =>
          buildMergedRow none (some rr) lcs (renamedRightCols lcs rcs rk))) ∧
    (mergeDatasets [[("id", Value.vNum 1)]] [[("id", Value.vNum 2)]]
        [Column.mk "id" ColType.number] [Column.mk "id" ColType.number]
        "id" "id" JoinType.full).data =
      [[("id", Value.vNum 1)], [("id", Value.vNull)]] := by
  refine ⟨?_, ?_, by decide⟩
  · intro ld rd lcs rcs lk rk
    rw [mergeDatasets_join_data ld rd lcs rcs lk rk JoinType.right (by decide),
      if_pos (Or.inl rfl),
      joinEmit_eq_of_not_leftfull rd rk lk JoinType.right lcs _ (by decide)]
  · intro ld rd lcs rcs lk rk
    rw [mergeDatasets_join_data ld rd lcs rcs lk rk JoinType.full (by decide),
      if_pos (Or.inr rfl),
      joinEmit_eq_of_leftfull rd rk lk JoinType.full lcs _ (Or.inr rfl)]

/-- C1 counterexample: with join keys `"zz"` naming no column on either side,
`mergeDatasets` does not fail — it returns a merge result, and one with a row
in it: both keys read as `undefined`, normalize to the null sentinel, and
null-match each other. -/
theorem claim_C1_counterexample :
    ¬ ("zz" ∈ ([Column.mk "a" ColType.number]).map Column.name) ∧
    ¬ ("zz" ∈ ([Column.mk "b" ColType.number]).map Column.name) ∧
    (mergeDatasets [[("a", Value.vNum 1)]] [[("b", Value.vNum 2)]]
      [Column.mk "a" ColType.number] [Column.mk "b" ColType.number]
      "zz" "zz" JoinType.inner).data =
      [[("a", Value.vNum 1), ("b", Value.vNum 2)]] :=
  ⟨by decide, by decide, by decide⟩

/-- C1 (amended): `mergeDatasets` performs no join-key validation.  For a
non-append join whose key names no field of the rows, every key value reads
as `undefined`, normalizes to the null sentinel, and null-matches the other
side; in particular, when both keys are absent from their rows, the inner
join returns the full cross product (|left| · |right| rows) instead of
failing. -/
theorem claim_C1_amended (ld rd : List Row) (lcs rcs : List Column) (lk rk : String)
    (hld : ∀ row ∈ ld, rowGet row lk = none)
    (hrd : ∀ row ∈ rd, rowGet row rk = none) :
    (mergeDatasets ld rd lcs rcs lk rk JoinType.inner).data.length =
      ld.length * rd.length := by
  rw [mergeDatasets_inner_length]
  have hmap : (ld.map fun lr => (matchesOf rd rk (joinKeyOf lr lk)).length) =
      ld.map fun _ => rd.length := by
    apply List.map_congr_left
    intro lr hlr
    have hkey : joinKeyOf lr lk = "__NULL__" := by
      show normalizeKey (rowGet lr lk) = "__NULL__"
      rw [hld lr hlr]
      rfl
    rw [hkey]
    have hall : matchesOf rd rk "__NULL__" = rd := by
      unfold matchesOf
      apply List.filter_eq_self.mpr
      intro rr hrr
      have : joinKeyOf rr rk = "__NULL__" := by
        show normalizeKey (rowGet rr rk) = "__NULL__"
        rw [hrd rr hrr]
        rfl
      rw [this]
      exact beq_self_eq_true _
    rw [hall]
  rw [hmap]
  simp [List.map_const', List.sum_replicate, smul_eq_mul]

/-- Witness for C1 (amended): two keyless left rows inner-joined with one
keyless right row give 2 · 1 rows. -/
theorem claim_C1_amended_witness :
    (mergeDatasets [[("a", Value.vNum 1)], [("a", Value.vNum 2)]]
      [[("b", Value.vNum 3)]]
      [Column.mk "a" ColType.number] [Column.mk "b" ColType.number]
      "zz" "zz" JoinType.inner).data.length = 2 * 1 := by
  exact claim_C1_amended
    [[("a", Value.vNum 1)], [("a", Value.vNum 2)]] [[("b", Value.vNum 3)]]
    [Column.mk "a" ColType.number] [Column.mk "b" ColType.number] "zz" "zz"
    (by decide) (by decide)

/-- C8: join matching compares keys after normalization — null/undefined
become the null sentinel and anything else its trimmed lowercased string
form — so values with equal trimmed-lowercased forms match (e.g. "Foo " and
"foo") and a null key matches a null key. -/
theorem claim_C8 :
    (∀ v w : Value, ¬ v = Value.vNull → ¬ w = Value.vNull →
      jsToLower (jsTrim (jsString v)) = jsToLower (jsTrim (jsString w)) →
      normalizeKey (some v) = normalizeKey (some w)) ∧
    normalizeKey (some Value.vNull) = normalizeKey none ∧
    (∀ (lv rv : Value) (lcs rcs : List Column) (lk rk : String),
      (mergeDatasets [[(lk, lv)]] [[(rk, rv)]] lcs rcs lk rk
          JoinType.inner).data.length =
        if normalizeKey (some lv) = normalizeKey (some rv) then 1 else 0) ∧
    (mergeDatasets [[("k", Value.vStr "Foo ")]] [[("k", Value.vStr "foo")]]
      [Column.mk "k" ColType.string] [Column.mk "k" ColType.string]
      "k" "k" JoinType.inner).data.length = 1 := by
  refine ⟨?_, rfl, ?_, by decide⟩
  · intro v w hv hw he
    cases v with
    | vNull => exact absurd rfl hv
    | vNum n =>
      cases w with
      | vNull => exact absurd rfl hw
      | vNum m => exact he
      | vStr t => exact he
    | vStr s =>
      cases w with
      | vNull => exact absurd rfl hw
      | vNum m => exact he
      | vStr t => exact he
  · intro lv rv lcs rcs lk rk
    rw [mergeDatasets_inner_length]
    have hkey : joinKeyOf [(lk, lv)] lk = normalizeKey (some lv) := by
      show normalizeKey (rowGet [(lk, lv)] lk) = normalizeKey (some lv)
      simp [rowGet]
    simp only [List.map_cons, List.map_nil, List.sum_cons, List.sum_nil,
      Nat.add_zero, hkey]
    have hkey2 : joinKeyOf [(rk, rv)] rk = normalizeKey (some rv) := by
      show normalizeKey (rowGet [(rk, rv)] rk) = normalizeKey (some rv)
      simp [rowGet]
    by_cases he : normalizeKey (some lv) = normalizeKey (some rv)
    · rw [if_pos he]
      simp [matchesOf, List.filter_cons, hkey2, he]
    · rw [if_neg he]
      have hne : ¬ normalizeKey (some rv) = normalizeKey (some lv) :=
        fun hh => he hh.symm
      simp [matchesOf, List.filter_cons, hkey2, hne]

/-- Witness for C8: "Foo " and "foo" normalize equal, and the single-row
inner join at equal numeric keys evaluates to one row. -/
theorem claim_C8_witness :
    normalizeKey (some (Value.vStr "Foo ")) = normalizeKey (some (Value.vStr "foo")) ∧
    (mergeDatasets [[("x", Value.vNum 1)]] [[("y", Value.vNum 1)]] [] [] "x" "y"
        JoinType.inner).data.length =
      if normalizeKey (some (Value.vNum 1)) = normalizeKey (some (Value.vNum 1))
        then 1 else 0 :=
  ⟨claim_C8.1 (Value.vStr "Foo ") (Value.vStr "foo") (by decide) (by decide) (by decide),
   claim_C8.2.2.1 (Value.vNum 1) (Value.vNum 1) [] [] "x" "y"⟩

/-- C4: append ignores the join keys and returns all (normalized) left rows
followed by all right rows — |left| + |right| of them; the column list is the
left columns followed by the right columns not already present by name, and
every output row carries a value (possibly null) for every output column. -/
theorem claim_C4 (ld rd : List Row) (lcs rcs : List Column) (lk rk : String)
    (hl : (lcs.map Column.name).Nodup) (hr : (rcs.map Column.name).Nodup) :
    (mergeDatasets ld rd lcs rcs lk rk JoinType.append).data.length =
      ld.length + rd.length ∧
    (∀ lk2 rk2 : String, mergeDatasets ld rd lcs rcs lk2 rk2 JoinType.append =
      mergeDatasets ld rd lcs rcs lk rk JoinType.append) ∧
    (mergeDatasets ld rd lcs rcs lk rk JoinType.append).columns =
      lcs ++ rcs.filter (fun c => !lcs.any fun c2 => c2.name = c.name) ∧
    (mergeDatasets ld rd lcs rcs lk rk JoinType.append).data =
      ld.map (normalizeRowTo ((unionColumns lcs rcs).map Column.name)) ++
      rd.map (normalizeRowTo ((unionColumns lcs rcs).map Column.name)) ∧
    (∀ row ∈ (mergeDatasets ld rd lcs rcs lk rk JoinType.append).data,
      ∀ c ∈ (mergeDatasets ld rd lcs rcs lk rk JoinType.append).columns,
        (rowGet row c.name).isSome = true) := by
  have hm : mergeDatasets ld rd lcs rcs lk rk JoinType.append =
      appendDatasets ld rd lcs rcs := by
    unfold mergeDatasets
    rw [if_pos rfl]
  refine ⟨?_, ?_, ?_, ?_, ?_⟩
  · rw [hm]
    show (ld.map (normalizeRowTo ((unionColumns lcs rcs).map Column.name)) ++
      rd.map (normalizeRowTo ((unionColumns lcs rcs).map Column.name))).length = _
    rw [List.length_append, List.length_map, List.length_map]
  · intro lk2 rk2
    rw [hm]
    unfold mergeDatasets
    rw [if_pos rfl]
  · rw [hm]
    show unionColumns lcs rcs = _
    exact unionColumns_eq lcs rcs hl hr
  · rw [hm]
    rfl
  · intro row hrow c hc
    rw [hm] at hrow hc
    have hrow2 : row ∈
        ld.map (normalizeRowTo ((unionColumns lcs rcs).map Column.name)) ++
        rd.map (normalizeRowTo ((unionColumns lcs rcs).map Column.name)) := hrow
    have hc2 : c ∈ unionColumns lcs rcs := hc
    have hname : c.name ∈ (unionColumns lcs rcs).map Column.name :=
      List.mem_map_of_mem Column.name hc2
    rcases List.mem_append.mp hrow2 with h | h
    · obtain ⟨x, _, rfl⟩ := List.mem_map.mp h
      rw [rowGet_normalizeRowTo, if_pos hname]
      rfl
    · obtain ⟨x, _, rfl⟩ := List.mem_map.mp h
      rw [rowGet_normalizeRowTo, if_pos hname]
      rfl

/-- Witness for C4 at a one-row/one-row, one-column/one-column instance. -/
theorem claim_C4_witness :
    (mergeDatasets [[("a", Value.vNum 1)]] [[("b", Value.vNum 2)]]
      [Column.mk "a" ColType.number] [Column.mk "b" ColType.number]
      "a" "b" JoinType.append).data.length = 1 + 1 ∧
    (mergeDatasets [[("a", Value.vNum 1)]] [[("b", Value.vNum 2)]]
      [Column.mk "a" ColType.number] [Column.mk "b" ColType.number]
      "a" "b" JoinType.append).columns =
      [Column.mk "a" ColType.number] ++
        [Column.mk "b" ColType.number].filter
          (fun c => !([Column.mk "a" ColType.number].any fun c2 => c2.name = c.name)) := by
  have h := claim_C4 [[("a", Value.vNum 1)]] [[("b", Value.vNum 2)]]
    [Column.mk "a" ColType.number] [Column.mk "b" ColType.number] "a" "b"
    (by decide) (by decide)
  exact ⟨h.1, h.2.2.1⟩

/-- C3: `recommendCharts` always returns a non-empty list containing the
TABLE entry with score 40 (it is a total function, so it cannot throw), and
on an empty column list with no dimension and no measures it returns exactly
the single TABLE entry. -/
theorem claim_C3 (columns : List Column) (dimension : Option String)
    (measures : Option (List String)) :
    Recommendation.mk "TABLE" 40 "Raw data table view" ∈
      recommendCharts columns dimension measures ∧
    ¬ recommendCharts columns dimension measures = [] ∧
    (columns = [] → dimension = none → measures = none →
      recommendCharts columns dimension measures =
        [Recommendation.mk "TABLE" 40 "Raw data table view"]) := by
  have hmem : Recommendation.mk "TABLE" 40 "Raw data table view" ∈
      recommendCharts columns dimension measures := by
    unfold recommendCharts
    rw [List.Perm.mem_iff (perm_sortDescBy (fun r : Recommendation => r.score)
      (dedupByType (recommendScores columns dimension measures)))]
    obtain ⟨hnodup, hmax, hcov⟩ :=
      dedupByType_spec (recommendScores columns dimension measures)
    have htab : Recommendation.mk "TABLE" 40 "Raw data table view" ∈
        recommendScores columns dimension measures := by
      unfold recommendScores
      exact table_mem_scoresFor _ _ _
    obtain ⟨r, hr, hrt⟩ := hcov _ htab
    have hprops := hmax r hr
    have hre : r = Recommendation.mk "TABLE" 40 "Raw data table view" :=
      scoresFor_table_unique hprops.1 hrt
    rw [hre] at hr
    exact hr
  refine ⟨hmem, List.ne_nil_of_mem hmem, ?_⟩
  intro hc hd hme
  subst hc; subst hd; subst hme
  rfl

/-- Witness for C3 at the empty input. -/
theorem claim_C3_witness :
    Recommendation.mk "TABLE" 40 "Raw data table view" ∈
      recommendCharts [] none none ∧
    recommendCharts [] none none =
      [Recommendation.mk "TABLE" 40 "Raw data table view"] := by
  have h := claim_C3 [] none none
  exact ⟨h.1, h.2.2 rfl rfl rfl⟩

/-- C5: each chart type appears at most once in the output (with the maximum
score any rule assigned to that type, and every scored type represented),
and the output is sorted by score in non-increasing order; the function is
pure, so equal inputs give the identical ordered output. -/
theorem claim_C5 (columns : List Column) (dimension : Option String)
    (measures : Option (List String)) :
    ((recommendCharts columns dimension measures).map Recommendation.type).Nodup ∧
    (∀ r ∈ recommendCharts columns dimension measures,
      r ∈ recommendScores columns dimension measures ∧
      ∀ s ∈ recommendScores columns dimension measures,
        s.type = r.type → s.score ≤ r.score) ∧
    (∀ s ∈ recommendScores columns dimension measures,
      ∃ r ∈ recommendCharts columns dimension measures, r.type = s.type) ∧
    (recommendCharts columns dimension measures).Pairwise
      (fun a b => b.score ≤ a.score) := by
  obtain ⟨hnodup, hmax, hcov⟩ :=
    dedupByType_spec (recommendScores columns dimension measures)
  have hperm := perm_sortDescBy (fun r : Recommendation => r.score)
    (dedupByType (recommendScores columns dimension measures))
  refine ⟨?_, ?_, ?_, ?_⟩
  · unfold recommendCharts
    exact ((hperm.map Recommendation.type).nodup_iff).mpr hnodup
  · intro r hr
    unfold recommendCharts at hr
    exact hmax r (hperm.mem_iff.mp hr)
  · intro s hs
    obtain ⟨r, hr, hrt⟩ := hcov s hs
    refine ⟨r, ?_, hrt⟩
    unfold recommendCharts
    exact hperm.mem_iff.mpr hr
  · unfold recommendCharts
    exact sorted_sortDescBy _ _

/-- Witness for C5 on a concrete two-column dataset. -/
theorem claim_C5_witness :
    ((recommendCharts [Column.mk "Department" ColType.string,
        Column.mk "Revenue" ColType.number] none none).map
      Recommendation.type).Nodup ∧
    Recommendation.mk "BAR_CLUSTERED" 90 "Compare values across categories" ∈
      recommendScores [Column.mk "Department" ColType.string,
        Column.mk "Revenue" ColType.number] none none ∧
    (Recommendation.mk "BAR_CLUSTERED" 90 "Compare values across categories").score ≤
      (Recommendation.mk "BAR_CLUSTERED" 90 "Compare values across categories").score := by
  have h := claim_C5 [Column.mk "Department" ColType.string,
    Column.mk "Revenue" ColType.number] none none
  have hb := h.2.1
    (Recommendation.mk "BAR_CLUSTERED" 90 "Compare values across categories")
    (by decide)
  exact ⟨h.1, hb.1,
    hb.2 (Recommendation.mk "BAR_CLUSTERED" 90 "Compare values across categories")
      hb.1 rfl⟩

/-- C9: each (left, right) column pair yields confidence 100 on equal
normalized names, else 60 on containment, else 30 on same type + shared
3-character normalized prefix + normalized length > 3 (else nothing); all
confidences are in {100, 60, 30}, the result is sorted descending by
confidence, and Scenario C yields one suggestion with confidence 100. -/
theorem claim_C9 :
    (∀ (lc rc : Column) (s : Suggestion), pairSuggestion lc rc = some s →
      s.confidence = 100 ∨ s.confidence = 60 ∨ s.confidence = 30) ∧
    (∀ lc rc : Column, normalizeName lc.name = normalizeName rc.name →
      pairSuggestion lc rc = some (Suggestion.mk lc.name rc.name 100)) ∧
    (∀ lc rc : Column, ¬ normalizeName lc.name = normalizeName rc.name →
      (strIncludes (normalizeName lc.name) (normalizeName rc.name) = true ∨
       strIncludes (normalizeName rc.name) (normalizeName lc.name) = true) →
      pairSuggestion lc rc = some (Suggestion.mk lc.name rc.name 60)) ∧
    (∀ lc rc : Column, ¬ normalizeName lc.name = normalizeName rc.name →
      ¬ (strIncludes (normalizeName lc.name) (normalizeName rc.name) = true ∨
         strIncludes (normalizeName rc.name) (normalizeName lc.name) = true) →
      lc.type = rc.type →
      (normalizeName lc.name).data.take 3 = (normalizeName rc.name).data.take 3 →
      3 < (normalizeName lc.name).length →
      pairSuggestion lc rc = some (Suggestion.mk lc.name rc.name 30)) ∧
    (∀ (L R : List Column), ∀ lc ∈ L, ∀ rc ∈ R, ∀ s : Suggestion,
      pairSuggestion lc rc = some s → s ∈ suggestJoinKeys L R) ∧
    (∀ (L R : List Column), ∀ s ∈ suggestJoinKeys L R,
      s.confidence = 100 ∨ s.confidence = 60 ∨ s.confidence = 30) ∧
    (∀ L R : List Column, (suggestJoinKeys L R).Pairwise
      (fun a b => b.confidence ≤ a.confidence)) ∧
    suggestJoinKeys [Column.mk "customer_id" ColType.number]
        [Column.mk "CustomerID" ColType.number] =
      [Suggestion.mk "customer_id" "CustomerID" 100] := by
  have hconf : ∀ (lc rc : Column) (s : Suggestion), pairSuggestion lc rc = some s →
      s.confidence = 100 ∨ s.confidence = 60 ∨ s.confidence = 30 := by
    intro lc rc s h
    simp only [pairSuggestion] at h
    split_ifs at h with h1 h2 h3
    all_goals first
      | (cases Option.some.inj h; simp)
      | (exact absurd h (by simp))
  refine ⟨hconf, ?_, ?_, ?_, ?_, ?_, ?_, by decide⟩
  · intro lc rc h
    simp only [pairSuggestion]
    rw [if_pos h]
  · intro lc rc h1 h2
    simp only [pairSuggestion]
    rw [if_neg h1, if_pos (by rw [Bool.or_eq_true]; exact h2)]
  · intro lc rc h1 h2 ht htake hlen
    simp only [pairSuggestion]
    rw [if_neg h1, if_neg (by rw [Bool.or_eq_true]; exact h2),
      if_pos ⟨ht, htake, hlen⟩]
  · intro L R lc hlc rc hrc s h
    unfold suggestJoinKeys
    rw [List.Perm.mem_iff (perm_sortDescBy (fun s : Suggestion => s.confidence)
      (L.flatMap fun lc => R.filterMap fun rc => pairSuggestion lc rc))]
    rw [List.mem_flatMap]
    exact ⟨lc, hlc, List.mem_filterMap.mpr ⟨rc, hrc, h⟩⟩
  · intro L R s hs
    unfold suggestJoinKeys at hs
    rw [List.Perm.mem_iff (perm_sortDescBy (fun s : Suggestion => s.confidence)
      (L.flatMap fun lc => R.filterMap fun rc => pairSuggestion lc rc))] at hs
    rw [List.mem_flatMap] at hs
    obtain ⟨lc, _, hs⟩ := hs
    obtain ⟨rc, _, hp⟩ := List.mem_filterMap.mp hs
    exact hconf lc rc s hp
  · intro L R
    unfold suggestJoinKeys
    exact sorted_sortDescBy _ _

/-- Witness for C9 at Scenario C's columns. -/
theorem claim_C9_witness :
    pairSuggestion (Column.mk "customer_id" ColType.number)
        (Column.mk "CustomerID" ColType.number) =
      some (Suggestion.mk "customer_id" "CustomerID" 100) ∧
    Suggestion.mk "customer_id" "CustomerID" 100 ∈
      suggestJoinKeys [Column.mk "customer_id" ColType.number]
        [Column.mk "CustomerID" ColType.number] := by
  have h := claim_C9
  refine ⟨h.2.1 _ _ (by decide), ?_⟩
  exact h.2.2.2.2.1 [Column.mk "customer_id" ColType.number]
    [Column.mk "CustomerID" ColType.number] _ (by decide) _ (by decide) _
    (h.2.1 (Column.mk "customer_id" ColType.number)
      (Column.mk "CustomerID" ColType.number) (by decide))

/-- C10: boolean columns never influence `recommendCharts` — the output
depends on the column list only through its non-boolean columns, and a list
of only boolean columns (with no dimension and no measures) yields exactly
the single TABLE entry. -/
theorem claim_C10 (cols cols2 : List Column) (dimension : Option String)
    (measures : Option (List String)) :
    (cols.filter (fun c => c.type ≠ ColType.boolean) =
        cols2.filter (fun c => c.type ≠ ColType.boolean) →
      recommendCharts cols dimension measures =
        recommendCharts cols2 dimension measures) ∧
    ((∀ c ∈ cols, c.type = ColType.boolean) →
      recommendCharts cols none none =
        [Recommendation.mk "TABLE" 40 "Raw data table view"]) := by
  have key : ∀ (t : ColType), ¬ t = ColType.boolean → ∀ l : List Column,
      l.filter (fun c => c.type = t) =
        (l.filter (fun c => c.type ≠ ColType.boolean)).filter
          (fun c => c.type = t) := by
    intro t ht l
    rw [List.filter_filter]
    apply List.filter_congr
    intro c _
    by_cases hc : c.type = t
    · simp [hc, ht]
    · simp [hc]
  have hcong : ∀ (l1 l2 : List Column) (d : Option String)
      (m : Option (List String)),
      l1.filter (fun c => c.type ≠ ColType.boolean) =
        l2.filter (fun c => c.type ≠ ColType.boolean) →
      recommendCharts l1 d m = recommendCharts l2 d m := by
    intro l1 l2 d m hfil
    have h1 : l1.filter (fun c => c.type = ColType.number) =
        l2.filter (fun c => c.type = ColType.number) := by
      rw [key ColType.number (by decide) l1, hfil, ← key ColType.number (by decide) l2]
    have h2 : l1.filter (fun c => c.type = ColType.string) =
        l2.filter (fun c => c.type = ColType.string) := by
      rw [key ColType.string (by decide) l1, hfil, ← key ColType.string (by decide) l2]
    have h3 : l1.filter (fun c => c.type = ColType.date) =
        l2.filter (fun c => c.type = ColType.date) := by
      rw [key ColType.date (by decide) l1, hfil, ← key ColType.date (by decide) l2]
    unfold recommendCharts
    congr 1
    simp only [recommendScores]
    rw [h1, h2, h3]
  refine ⟨hcong cols cols2 dimension measures, ?_⟩
  intro hb
  have hnil : cols.filter (fun c => c.type ≠ ColType.boolean) =
      ([] : List Column).filter (fun c => c.type ≠ ColType.boolean) := by
    rw [List.filter_nil]
    apply List.filter_eq_nil_iff.mpr
    intro c hc
    simp [hb c hc]
  rw [hcong cols [] none none hnil]
  rfl

/-- Witness for C10: a single boolean column behaves like no column at all. -/
theorem claim_C10_witness :
    recommendCharts [Column.mk "flag" ColType.boolean] none none =
      recommendCharts [] none none ∧
    recommendCharts [Column.mk "flag" ColType.boolean] none none =
      [Recommendation.mk "TABLE" 40 "Raw data table view"] := by
  have h := claim_C10 [Column.mk "flag" ColType.boolean] [] none none
  exact ⟨h.1 (by decide), h.2 (by decide)⟩

end TabNLP
